import Mathlib

/-
  Verification development for a D3/React book-data visualization pipeline.

  Shallow embedding of the data-preparation code of three chart components:
  * GenreBarChart (categorical aggregator `aggregateGenres`),
  * RatingYearHeatmap (binning aggregator: `pickKey`, `toNumber`, `decadeOf`,
    `ratingBinOf`, the `prepared` memo),
  * ParallelCoords (dimension selector and projection: `isFiniteNumber`,
    `variance`, `preferredGroups`, the `prepared` memo).

  Modelling conventions:
  * JS numbers are modelled exactly by `JSNum` (a rational, +Infinity,
    -Infinity, or NaN).  All arithmetic the claims depend on is exact at the
    inputs considered, so the rational model is faithful there.
  * JS cell values are modelled by `JSValue`; a row is an association list
    from field name to value (JS object keys are unique and iterate in
    insertion order).  `r?.[k]` for an absent key is `Option.none`
    (undefined).
  * JS `String.prototype.toLowerCase`, `trim` and `split(',')` are modelled
    on the underlying character lists; `toLowerCase` is modelled on the
    ASCII range, which covers every string the components use.
  * An ES2019 `Array.prototype.sort` with a consistent comparator is
    required to be a stable sort; it is modelled by a stable insertion
    sort, which any compliant implementation must agree with (proved in
    `stableSortDescUnique`).
-/

namespace BookViz

/-- A JavaScript number: a finite value (exact rational model), one of the
two infinities, or NaN. -/
inductive JSNum where
  | finite (q : ℚ)
  | posInf
  | negInf
  | nan
deriving DecidableEq, Repr

/-- A JavaScript cell value as produced by `d3.csv` (with or without
`d3.autoType`): a number, a string, `null`, or a boolean. -/
inductive JSValue where
  | num (n : JSNum)
  | str (s : String)
  | null
  | boolean (b : Bool)
deriving DecidableEq, Repr

/-- A raw row: association list from field name to cell value, in the
object's key insertion order. -/
abbrev Row := List (String × JSValue)

/-! ### String helpers (ASCII model of the JS string methods used) -/

/-- `String.prototype.toLowerCase` on one character (ASCII range). -/
def lowerChar (c : Char) : Char :=
  if 65 ≤ c.toNat ∧ c.toNat ≤ 90 then Char.ofNat (c.toNat + 32) else c

/-- `String.prototype.toLowerCase` (ASCII model). -/
def toLowerS (s : String) : String :=
  ⟨s.data.map lowerChar⟩

/-- Whitespace recognised by `String.prototype.trim` (ASCII subset). -/
def isSpaceChar (c : Char) : Bool :=
  c = ' ' ∨ c = '\t' ∨ c = '\n' ∨ c = '\r'

/-- `String.prototype.trim`. -/
def trimS (s : String) : String :=
  ⟨((s.data.dropWhile isSpaceChar).reverse.dropWhile isSpaceChar).reverse⟩

/-- `String.prototype.split(',')` on the character list. -/
def splitCommaAux : List Char → List Char → List (List Char)
  | [], acc => [acc.reverse]
  | c :: cs, acc =>
      if c = ',' then acc.reverse :: splitCommaAux cs []
      else splitCommaAux cs (c :: acc)

/-- `String.prototype.split(',')`. -/
def splitComma (s : String) : List String :=
  (splitCommaAux s.data []).map (fun l => ⟨l⟩)

/-! ### Row access -/

/-- `Object.keys(row)`: field names in insertion order. -/
def rowKeys (r : Row) : List String :=
  r.map Prod.fst

/-- `r?.[k]`: `none` when the key is absent (JS `undefined`). -/
def getVal (r : Row) (k : String) : Option JSValue :=
  (r.find? (fun p => p.1 == k)).map Prod.snd

/-! ### Column resolver (`pickKey`, identical in RatingYearHeatmap.jsx and
ParallelCoords.jsx) -/

/-- The contents of `new Map(keys.map((k) => [k.toLowerCase(), k]))` looked
up at `c`: later insertions overwrite earlier ones, so this returns the
last key whose lowercased form is `c`. -/
def lowerToActual (keys : List String) (c : String) : Option String :=
  keys.foldl (fun acc k => if toLowerS k == c then some k else acc) none

/-- The candidate loop of `pickKey`.  JS tests `if (actual)`, so an
empty-string key (falsy) is skipped like a missing entry. -/
def pickKeyAux (keys : List String) : List String → Option String
  | [] => none
  | c :: cs =>
    match lowerToActual keys c with
    | some k => if k == "" then pickKeyAux keys cs else some k
    | none => pickKeyAux keys cs

/-- `pickKey(row, candidates)` from RatingYearHeatmap.jsx lines 4-13 (and
identically ParallelCoords.jsx lines 4-13). -/
def pickKey (row : Row) (candidates : List String) : Option String :=
  pickKeyAux (rowKeys row) candidates

/-! ### Value coercion -/

/-- The ECMAScript string-to-number grammar, modelled for decimal literals
`[sign] digits [. digits]`, the `Infinity` spellings, and the empty /
whitespace-only string (which JS converts to 0).  Strings outside this
fragment (hex, exponents, ...) are mapped to NaN; no claim touches them. -/
def digitsVal (l : List Char) : ℕ :=
  l.foldl (fun acc c => acc * 10 + (c.toNat - 48)) 0

/-- All characters are ASCII digits. -/
def allDigits (l : List Char) : Bool :=
  l.all (fun c => 48 ≤ c.toNat ∧ c.toNat ≤ 57)

/-- Parse `digits [. digits]` (at least one digit overall) as a rational. -/
def parseDecBody (l : List Char) : Option ℚ :=
  let intPart := l.takeWhile (fun c => c ≠ '.')
  match l.dropWhile (fun c => c ≠ '.') with
  | [] =>
    if intPart ≠ [] ∧ allDigits intPart then some (digitsVal intPart) else none
  | _ :: frac =>
    if (intPart ≠ [] ∨ frac ≠ []) ∧ allDigits intPart ∧ allDigits frac then
      some ((digitsVal intPart : ℚ) + (digitsVal frac : ℚ) / (10 : ℚ) ^ frac.length)
    else none

/-- Parse `[sign] digits [. digits]`. -/
def parseDec (l : List Char) : Option ℚ :=
  match l with
  | '+' :: rest => parseDecBody rest
  | '-' :: rest => (parseDecBody rest).map Neg.neg
  | _ => parseDecBody l

/-- ECMAScript `StringToNumber` (on the fragment described at
`parseDecBody`). -/
def strToNumber (s : String) : JSNum :=
  let t := trimS s
  if t = "" then .finite 0
  else if t = "Infinity" ∨ t = "+Infinity" then .posInf
  else if t = "-Infinity" then .negInf
  else
    match parseDec t.data with
    | some q => .finite q
    | none => .nan

/-- ECMAScript `ToNumber` (the JS builtin `Number(v)`), on an optional cell
value (`none` is `undefined`). -/
def jsNumberOf : Option JSValue → JSNum
  | none => .nan
  | some (.num n) => n
  | some (.str s) => strToNumber s
  | some .null => .finite 0
  | some (.boolean b) => .finite (if b then 1 else 0)

/-- `toNumber(v)` from RatingYearHeatmap.jsx lines 15-18:
`const n = typeof v === 'number' ? v : Number(v);
 return Number.isFinite(n) ? n : null`. -/
def toNumber (v : Option JSValue) : Option ℚ :=
  let n : JSNum :=
    match v with
    | some (.num m) => m
    | _ => jsNumberOf v
  match n with
  | .finite q => some q
  | _ => none

/-- `isFiniteNumber(v)` from ParallelCoords.jsx lines 15-17:
`typeof v === 'number' && Number.isFinite(v)`. -/
def isFiniteNumber : Option JSValue → Bool
  | some (.num (.finite _)) => true
  | _ => false

/-- The numeric value read by the projection: `isFiniteNumber(v) ? v : null`. -/
def coerceVal : Option JSValue → Option ℚ
  | some (.num (.finite q)) => some q
  | _ => none

/-! ### Counting map (JS `Map` used as a counter: insertion order is
preserved, `counts.set(k, (counts.get(k) ?? 0) + 1)`) -/

section CountMap

variable {κ : Type} [DecidableEq κ]

/-- One `counts.set(k, (counts.get(k) ?? 0) + 1)` step on the
insertion-ordered entry list of the map. -/
def bump (m : List (κ × ℕ)) (k : κ) : List (κ × ℕ) :=
  match m with
  | [] => [(k, 1)]
  | (k0, c) :: rest => if k0 = k then (k0, c + 1) :: rest else (k0, c) :: bump rest k

/-- `counts.get(k) ?? 0`. -/
def lookupD (m : List (κ × ℕ)) (k : κ) : ℕ :=
  match m.find? (fun p => p.1 = k) with
  | some p => p.2
  | none => 0

end CountMap

/-! ### Stable sorting (ES2019 `Array.prototype.sort` is stable; a stable
sort with a consistent comparator is unique, so the insertion sort below is
THE result any compliant engine must produce — see
`stableSortDescUnique`) -/

section StableSort

variable {α : Type} {β : Type} [LinearOrder β]

/-- Insert `x` in front of the first element whose priority is ≤ `f x`
(so an element keeps its place ahead of later equal-priority elements). -/
def insertDescBy (f : α → β) (x : α) : List α → List α
  | [] => [x]
  | y :: ys => if f y ≤ f x then x :: y :: ys else y :: insertDescBy f x ys

/-- Stable sort, descending by the priority `f`. -/
def sortDescBy (f : α → β) : List α → List α
  | [] => []
  | x :: xs => insertDescBy f x (sortDescBy f xs)

/-- Insert `x` in front of the first element whose priority is ≥ `f x`. -/
def insertAscBy (f : α → β) (x : α) : List α → List α
  | [] => [x]
  | y :: ys => if f x ≤ f y then x :: y :: ys else y :: insertAscBy f x ys

/-- Stable sort, ascending by the priority `f` (`sort(d3.ascending)`). -/
def sortAscBy (f : α → β) : List α → List α
  | [] => []
  | x :: xs => insertAscBy f x (sortAscBy f xs)

end StableSort

/-! ### Order-preserving deduplication (`Array.from(new Set(xs))`, and the
`if (!combined.includes(k)) combined.push(k)` pattern) -/

/-- Append `k` unless already present. -/
def pushUnique {α : Type} [DecidableEq α] (acc : List α) (k : α) : List α :=
  if k ∈ acc then acc else acc ++ [k]

/-- `Array.from(new Set(l))`: first-occurrence order, duplicates removed. -/
def dedupFold {α : Type} [DecidableEq α] (l : List α) : List α :=
  l.foldl pushUnique []

end BookViz

/-! ## GenreBarChart (src/unnamed/part_000): categorical aggregator -/

namespace BookViz.Genre

/-- This component loads its CSV without `d3.autoType`, so every present
cell value is a string; a row is an association list from field name to
string value. -/
abbrev GRow := List (String × String)

/-- `row?.[k]` on a string-valued row. -/
def getValS (r : GRow) (k : String) : Option String :=
  (r.find? (fun p => p.1 == k)).map Prod.snd

/-- `normalizeGenreKey(row)` (part_000 lines 4-12): first field name, in
row-key order, whose lowercased form is `genres` or `genre`. -/
def normalizeGenreKey (r : GRow) : Option String :=
  (r.map Prod.fst).find? (fun k => toLowerS k == "genres" || toLowerS k == "genre")

/-- The comma-split-trim-drop-empty step:
`String(raw).split(',').map((d) => d.trim()).filter(Boolean)`. -/
def splitTrim (s : String) : List String :=
  ((splitComma s).map trimS).filter (fun p => p ≠ "")

/-- The counting phase of `aggregateGenres` (part_000 lines 20-31), as the
insertion-ordered entry list of the `counts` map.  The source returns `[]`
early when the rows are empty or no genre column resolves; those early
returns coincide with this definition producing `[]`. -/
def countsFor (rows : List GRow) : List (String × ℕ) :=
  match rows with
  | [] => []
  | row0 :: _ =>
    match normalizeGenreKey row0 with
    | none => []
    | some gk =>
      rows.foldl
        (fun m r =>
          match getValS r gk with
          | none => m
          | some raw =>
            if raw = "" then m  -- `if (!raw) continue`
            else (splitTrim raw).foldl bump m)
        []

/-- `aggregateGenres(rows, topN)` (part_000 lines 14-36): stable sort of
the count entries descending by count, then `slice(0, topN)`.  Entries are
`{genre, count}` records, modelled as pairs. -/
def aggregateGenres (rows : List GRow) (topN : ℕ) : List (String × ℕ) :=
  (sortDescBy (fun p => p.2) (countsFor rows)).take topN

end BookViz.Genre

/-! ## RatingYearHeatmap (RatingYearHeatmap.jsx): binning aggregator -/

namespace BookViz.Heat

/-- Year-column aliases (RatingYearHeatmap.jsx lines 74-81). -/
def yearCandidates : List String :=
  ["publication_year", "published_year", "original_publication_year",
   "year", "publicationyear", "publicationYear"]

/-- Rating-column aliases (line 82). -/
def ratingCandidates : List String :=
  ["average_rating", "avg_rating", "rating", "rating_average"]

/-- `decadeOf(year)` (lines 20-22): `Math.floor(year / 10) * 10`. -/
def decadeOf (year : ℚ) : ℤ :=
  ⌊year / 10⌋ * 10

/-- JS `Math.round` on the exact model: half-up, `⌊x + 1/2⌋`. -/
def jsRound (x : ℚ) : ℤ :=
  ⌊x + 1 / 2⌋

/-- `ratingBinOf(rating)` (lines 24-27):
`const b = Math.floor(rating / 0.5) * 0.5; return Math.round(b * 10) / 10`. -/
def ratingBinOf (rating : ℚ) : ℚ :=
  let b : ℚ := (⌊rating / (1 / 2 : ℚ)⌋ : ℚ) * (1 / 2)
  (jsRound (b * 10) : ℚ) / 10

/-- One retained item of the heatmap pipeline: the decade and rating
bucket of a row that coerced and passed the year-range filter.  (The
source also carries a tooltip `title` string; no claim refers to it, and
JS number-to-string rendering is out of the model, so it is omitted.) -/
structure HeatItem where
  decade : ℤ
  ratingBin : ℚ
deriving DecidableEq, Repr

/-- One cell of the output grid: `{decade, ratingBin, count}`. -/
structure HeatCell where
  decade : ℤ
  ratingBin : ℚ
  count : ℕ
deriving DecidableEq, Repr

/-- The output of the heatmap `prepared` memo. -/
structure HeatPrep where
  data : List HeatCell
  decades : List ℤ
  ratingBins : List ℚ
  maxCount : ℕ
deriving DecidableEq, Repr

/-- The `items` array (lines 86-98): per row, coerce year and rating, drop
the row if either is invalid or the year is outside the configured bounds,
else record the decade and rating bucket.  `minYear`/`maxYear` are
`Option ℚ`: `some` models a finite JS number, `none` models `null` (the
source guards with `typeof === 'number' && Number.isFinite`). -/
def itemsOf (rows : List Row) (minYear maxYear : Option ℚ) : List HeatItem :=
  match rows with
  | [] => []
  | row0 :: _ =>
    match pickKey row0 yearCandidates, pickKey row0 ratingCandidates with
    | some yearKey, some ratingKey =>
      rows.filterMap (fun r =>
        match toNumber (getVal r yearKey), toNumber (getVal r ratingKey) with
        | some year, some rating =>
          let belowMin : Bool := match minYear with | some m => decide (year < m) | none => false
          let aboveMax : Bool := match maxYear with | some m => decide (m < year) | none => false
          if belowMin then none
          else if aboveMax then none
          else some ⟨decadeOf year, ratingBinOf rating⟩
        | _, _ => none)
    | _, _ => []

/-- The heatmap `prepared` memo (lines 69-121).  The `counts` map is keyed
by the template string `` `${dec}|${bin}` ``; the rendering of an integer
decade and a one-decimal bucket is injective on the values that occur, so
the key is modelled by the pair itself.  The source's early returns (empty
rows, unresolved year or rating column) return the all-empty record, which
coincides with running the general computation on an empty `items` list. -/
def heatPrepared (rows : List Row) (minYear maxYear : Option ℚ) : HeatPrep :=
  let its := itemsOf rows minYear maxYear
  let decades := sortAscBy id (dedupFold (its.map HeatItem.decade))
  let ratingBins := sortAscBy id (dedupFold (its.map HeatItem.ratingBin))
  let counts := its.foldl (fun m it => bump m (it.decade, it.ratingBin)) []
  let data := decades.flatMap (fun dec =>
    ratingBins.map (fun bin => HeatCell.mk dec bin (lookupD counts (dec, bin))))
  { data := data
    decades := decades
    ratingBins := ratingBins
    maxCount := (data.map HeatCell.count).foldl max 0 }

end BookViz.Heat

/-! ## ParallelCoords (ParallelCoords.jsx): dimension selector and
projection -/

namespace BookViz.PC

/-- The identifier-like exclusion set (line 89): `new Set(['id', 'isbn'])`. -/
def excludedKeys : List String := ["id", "isbn"]

/-- Title-column aliases (line 85). -/
def titleCandidates : List String := ["title", "book_title", "name"]

/-- `preferredGroups()` (lines 37-46). -/
def preferredGroups : List (List String) :=
  [["publication_year", "publicationyear", "published_year",
    "original_publication_year", "year", "publicationYear"],
   ["average_rating", "rating_average", "avg_rating", "rating"],
   ["page_count", "pagecount", "pages", "pageCount"],
   ["ratings_count", "rating_count", "num_ratings", "ratingsCount"],
   ["swap_count", "swapcount", "exchange_count", "exchangecount", "swaps",
    "exchangeCount", "swapCount"],
   ["popularity_score", "popularityscore", "popularity", "score"]]

/-- `d3.mean` of a rational list (`undefined ?? 0` on the empty list; in
the rational model `sum / 0 = 0` gives the same value). -/
def meanQ (l : List ℚ) : ℚ :=
  l.sum / l.length

/-- `variance(values)` (lines 30-35): population variance of the valid
values; 0 for fewer than two values. -/
def variance (values : List ℚ) : ℚ :=
  if values.length < 2 then 0
  else meanQ (values.map (fun d => (d - meanQ values) * (d - meanQ values)))

/-- The numeric-candidate filter (lines 90-98): keep a key unless its
lowercased form is excluded, and require at least one row with a finite
numeric value for it. -/
def numericCandidates (rows : List Row) (keys : List String) : List String :=
  (keys.filter (fun k => !(excludedKeys.contains (toLowerS k)))).filter
    (fun k => rows.any (fun r => isFiniteNumber (getVal r k)))

/-- A Dimension Descriptor (the per-candidate record of lines 100-104).
`missingShare` is `missingRatio` in the source: `1 - validCount / total`. -/
structure Stat where
  key : String
  values : List ℚ
  validCount : ℕ
  missingShare : ℚ
  var : ℚ
deriving DecidableEq, Repr

/-- The per-candidate record (lines 101-104). -/
def statOf (rows : List Row) (k : String) : Stat :=
  let values := rows.filterMap (fun r => coerceVal (getVal r k))
  { key := k
    values := values
    validCount := values.length
    missingShare := 1 - (values.length : ℚ) / (rows.length : ℚ)
    var := variance values }

/-- The surviving Dimension Descriptors (lines 100-107): candidates with a
positive valid count and a missing ratio of at most 0.4. -/
def statsFor (rows : List Row) (keys : List String) : List Stat :=
  (((numericCandidates rows keys).map (statOf rows)).filter
      (fun d => decide (0 < d.validCount))).filter
    (fun d => decide (d.missingShare ≤ (2 / 5 : ℚ)))

/-- The surviving numeric candidates of a dataset (statistics of the keys
of the first row, over all rows). -/
def survivors (rows : List Row) : List Stat :=
  match rows with
  | [] => []
  | row0 :: _ => statsFor rows (rowKeys row0)

/-- The preference pass (lines 109-119): for each semantic group, the
first alias that case-insensitively matches a surviving key is resolved to
that key (`Array.from(keySet).find(...)`, i.e. first match in the stats
insertion order) and the group is left. -/
def preferredFor (ks : List String) : List String :=
  preferredGroups.foldl
    (fun acc group =>
      match group.findSome?
          (fun al => ks.find? (fun k => toLowerS k == toLowerS al)) with
      | some actual => acc ++ [actual]
      | none => acc)
    []

/-- Lines 121-124: variance-ranked keys after the preferred keys, first
occurrence kept. -/
def combinedFor (pref byVar : List String) : List String :=
  byVar.foldl pushUnique (pref.foldl pushUnique [])

/-- The bounded selection (lines 126-130):
`maxPick = Math.max(1, Math.min(maxDims, combined.length))`,
slice to `maxPick`, re-truncate when longer than `maxDims`, re-slice from
`combined` up to `minDims` when shorter than `minDims`. -/
def dimsFor (combined : List String) (maxDims minDims : ℕ) : List String :=
  let maxPick := max 1 (min maxDims combined.length)
  let d0 := combined.take maxPick
  let d1 := if maxDims < d0.length then d0.take maxDims else d0
  if d1.length < minDims then combined.take (min minDims combined.length) else d1

/-- A Prepared Projection Record (lines 133-144): the raw-row
back-reference, the tooltip label source, a cell per selected dimension
(`null` when the value is not a finite number), and the missing-cell
count.  The JS `String()` rendering of the label is not modelled; the raw
title value is kept instead. -/
structure PRec where
  raw : Row
  title : Option JSValue
  vals : List (String × Option ℚ)
  missing : ℕ
deriving DecidableEq, Repr

/-- Build the record of one row (lines 134-144). -/
def mkRec (titleKey : Option String) (dims : List String) (r : Row) : PRec :=
  { raw := r
    title := titleKey.bind (getVal r)
    vals := dims.map (fun d => (d, coerceVal (getVal r d)))
    missing := (dims.filter (fun d => !isFiniteNumber (getVal r d))).length }

/-- Lines 133-149: build a record per row, keep rows whose missing count
is at most `floor(dims.length / 2)`, then cap to the first `maxLines` rows
when the cap is positive (`maxLines = 0` models a disabled cap, the
source's `Number.isFinite(maxLines) && maxLines > 0` guard). -/
def projFor (rows : List Row) (titleKey : Option String) (dims : List String)
    (maxLines : ℕ) : List PRec :=
  let data := (rows.map (mkRec titleKey dims)).filter
    (fun rec => decide (rec.missing ≤ dims.length / 2))
  if 0 < maxLines ∧ maxLines < data.length then data.take maxLines else data

/-- The output of the ParallelCoords `prepared` memo. -/
structure PrepPC where
  dims : List String
  data : List PRec
  titleKey : Option String
deriving DecidableEq, Repr

/-- The ParallelCoords `prepared` memo (lines 82-152).  `maxDims` and
`minDims` are the caller-supplied dimension bounds (counts, so naturals;
defaults 6 and 4), `maxLines` the row cap (default 550, 0 disables).  The
returned `dims` is `Array.from(new Set(dims))`. -/
def prepared (rows : List Row) (maxDims minDims maxLines : ℕ) : PrepPC :=
  match rows with
  | [] => { dims := [], data := [], titleKey := none }
  | row0 :: _ =>
    let titleKey := pickKey row0 titleCandidates
    let sts := statsFor rows (rowKeys row0)
    let pref := preferredFor (sts.map Stat.key)
    let byVar := (sortDescBy (fun d => d.var) sts).map Stat.key
    let combined := combinedFor pref byVar
    let dims := dimsFor combined maxDims minDims
    { dims := dedupFold dims
      data := projFor rows titleKey dims maxLines
      titleKey := titleKey }

end BookViz.PC

/-! ## Auxiliary predicates and concrete datasets used in the theorem
statements below -/

namespace BookViz

/-- A candidate `c` resolves against `keys` exactly when some nonempty
field name lowercases to it (the resolver's `if (actual)` truthiness test
makes an empty-string field name unmatchable). -/
def hasMatch (keys : List String) (c : String) : Bool :=
  keys.any (fun k => decide (k ≠ "") && (toLowerS k == c))

/-- A string containing an ASCII uppercase letter. -/
def hasUpperA (s : String) : Bool :=
  s.data.any (fun ch => decide (65 ≤ ch.toNat) && decide (ch.toNat ≤ 90))

/-- The number of selected dimensions at which a row's value is not a
finite number (the projection loop's `missing` counter). -/
def missingOf (r : Row) (dims : List String) : ℕ :=
  (dims.filter (fun d => !isFiniteNumber (getVal r d))).length

end BookViz

namespace BookViz.Genre

/-- The spec's categorical-aggregator example dataset:
`[{genre:"Fantasy, Drama"}, {genre:"Drama"}, {genre:"Fantasy"}]`. -/
def exampleRows : List GRow :=
  [[("genre", "Fantasy, Drama")], [("genre", "Drama")], [("genre", "Fantasy")]]

end BookViz.Genre

namespace BookViz.Heat

/-- A row with a given year and rating (concrete witness data). -/
def hRow (y r : ℚ) : Row :=
  [("year", JSValue.num (.finite y)), ("rating", JSValue.num (.finite r))]

/-- The spec's heatmap example dataset: years 1995, 2001, 2004 with
ratings 3.2, 3.6, 4.9. -/
def hRows : List Row :=
  [hRow 1995 (32/10), hRow 2001 (36/10), hRow 2004 (49/10)]

end BookViz.Heat

namespace BookViz.PC

/-- Concrete witness dataset: one row with two numeric columns. -/
def pcRowsA : List Row :=
  [[("a", JSValue.num (.finite 1)), ("b", JSValue.num (.finite 2))]]

/-- Concrete counterexample dataset: one row with one numeric column. -/
def pcRowsB : List Row :=
  [[("a", JSValue.num (.finite 1))]]

/-- A three-column row (concrete witness data). -/
def pcR (a b c : JSValue) : Row :=
  [("a", a), ("b", b), ("c", c)]

/-- Concrete witness dataset for the projection row-drop rule: four
complete rows and one row with two of three dimensions missing. -/
def pcRowsC : List Row :=
  [pcR (.num (.finite 1)) (.num (.finite 2)) (.num (.finite 3)),
   pcR (.num (.finite 4)) (.num (.finite 5)) (.num (.finite 6)),
   pcR (.num (.finite 7)) (.num (.finite 8)) (.num (.finite 9)),
   pcR (.num (.finite 10)) (.num (.finite 11)) (.num (.finite 12)),
   pcR (.num (.finite 13)) (.str "x") .null]

/-- The dropped row of `pcRowsC`. -/
def pcBadRow : Row :=
  pcR (.num (.finite 13)) (.str "x") .null

end BookViz.PC

/-! ## Lemmas: counting map -/

namespace BookViz

section CountMapLemmas

variable {κ : Type} [DecidableEq κ]

theorem lookupD_nil (k : κ) : lookupD ([] : List (κ × ℕ)) k = 0 := rfl

theorem lookupD_cons (p : κ × ℕ) (rest : List (κ × ℕ)) (k : κ) :
    lookupD (p :: rest) k = if p.1 = k then p.2 else lookupD rest k := by
  by_cases h : p.1 = k <;> simp [lookupD, List.find?_cons, h]

theorem bump_cons (p : κ × ℕ) (rest : List (κ × ℕ)) (k : κ) :
    bump (p :: rest) k =
      if p.1 = k then (p.1, p.2 + 1) :: rest else (p.1, p.2) :: bump rest k := by
  rfl

theorem lookupD_bump_self (m : List (κ × ℕ)) (k : κ) :
    lookupD (bump m k) k = lookupD m k + 1 := by
  induction m with
  | nil => simp [bump, lookupD_cons, lookupD_nil]
  | cons p rest ih =>
    rw [bump_cons]
    by_cases h : p.1 = k
    · simp [lookupD_cons, h]
    · simp only [if_neg h, lookupD_cons, if_neg h, ih]

theorem lookupD_bump_other (m : List (κ × ℕ)) (k k' : κ) (hne : k ≠ k') :
    lookupD (bump m k) k' = lookupD m k' := by
  induction m with
  | nil => simp [bump, lookupD_cons, lookupD_nil, fun h => hne h]
  | cons p rest ih =>
    rw [bump_cons]
    by_cases h : p.1 = k
    · rw [if_pos h, lookupD_cons, lookupD_cons]
      have hne2 : ¬ p.1 = k' := fun h2 => hne (h ▸ h2)
      simp only [if_neg hne2]
    · rw [if_neg h, lookupD_cons, lookupD_cons, ih]

/-- The map built by repeated `bump` over the keys of a list counts
occurrences: looking up `p` yields the number of elements with key `p`. -/
theorem lookupD_foldl_bump {α : Type} (key : α → κ) (l : List α)
    (m : List (κ × ℕ)) (p : κ) :
    lookupD (l.foldl (fun m a => bump m (key a)) m) p =
      lookupD m p + l.countP (fun a => decide (key a = p)) := by
  induction l generalizing m with
  | nil => simp
  | cons a rest ih =>
    simp only [List.foldl_cons, List.countP_cons]
    rw [ih]
    by_cases h : key a = p
    · rw [h, lookupD_bump_self]
      simp [h]
      omega
    · rw [lookupD_bump_other _ _ _ h]
      simp [h]

end CountMapLemmas

/-! ## Lemmas: stable sorting -/

section StableSortLemmas

variable {α : Type} {β : Type} [LinearOrder β] (f : α → β)

theorem insertDescBy_perm (x : α) (l : List α) :
    List.Perm (insertDescBy f x l) (x :: l) := by
  induction l with
  | nil => rfl
  | cons y ys ih =>
    simp only [insertDescBy]
    split
    · rfl
    · exact (List.Perm.cons y ih).trans (List.Perm.swap x y ys)

theorem sortDescBy_perm (l : List α) : List.Perm (sortDescBy f l) l := by
  induction l with
  | nil => rfl
  | cons x xs ih =>
    exact (insertDescBy_perm f x (sortDescBy f xs)).trans (List.Perm.cons x ih)

theorem insertDescBy_sorted (x : α) (l : List α)
    (h : l.Pairwise (fun a b => f b ≤ f a)) :
    (insertDescBy f x l).Pairwise (fun a b => f b ≤ f a) := by
  induction l with
  | nil => simp [insertDescBy]
  | cons y ys ih =>
    simp only [insertDescBy]
    rcases List.pairwise_cons.mp h with ⟨hy, hys⟩
    split
    · rename_i hle
      refine List.pairwise_cons.mpr ⟨?_, h⟩
      intro b hb
      rcases List.mem_cons.mp hb with hb | hb
      · subst hb; exact hle
      · exact le_trans (hy _ hb) hle
    · rename_i hlt
      push_neg at hlt
      refine List.pairwise_cons.mpr ⟨?_, ih hys⟩
      intro b hb
      rcases List.mem_cons.mp ((insertDescBy_perm f x ys).mem_iff.mp hb) with hb2 | hb2
      · subst hb2; exact le_of_lt hlt
      · exact hy _ hb2

theorem sortDescBy_sorted (l : List α) :
    (sortDescBy f l).Pairwise (fun a b => f b ≤ f a) := by
  induction l with
  | nil => simp [sortDescBy]
  | cons x xs ih => exact insertDescBy_sorted f x _ ih

/-- Stability: filtering the insertion at any fixed priority class. -/
theorem insertDescBy_filter (x : α) (l : List α) (c : β) :
    (insertDescBy f x l).filter (fun a => decide (f a = c)) =
      if f x = c then x :: l.filter (fun a => decide (f a = c))
      else l.filter (fun a => decide (f a = c)) := by
  induction l with
  | nil => by_cases h : f x = c <;> simp [insertDescBy, h]
  | cons y ys ih =>
    simp only [insertDescBy]
    split
    · rename_i hle
      by_cases h : f x = c <;> simp [List.filter_cons, h]
    · rename_i hlt
      push_neg at hlt
      by_cases hy : f y = c
      · have hx : ¬ f x = c := fun hx =>
          absurd (hx.trans hy.symm).ge (not_le.mpr hlt)
        simp [List.filter_cons, hy, hx, ih]
      · simp [List.filter_cons, hy, ih]

/-- Stability of the sort, as preservation of the per-priority-class
subsequences: filtering the sorted list at any fixed priority gives
exactly the filter of the input (equal-priority elements keep their
relative order). -/
theorem sortDescBy_filter (l : List α) (c : β) :
    (sortDescBy f l).filter (fun a => decide (f a = c)) =
      l.filter (fun a => decide (f a = c)) := by
  induction l with
  | nil => rfl
  | cons x xs ih =>
    simp only [sortDescBy]
    rw [insertDescBy_filter]
    by_cases h : f x = c <;> simp [List.filter_cons, h, ih]

theorem insertAscBy_perm (x : α) (l : List α) :
    List.Perm (insertAscBy f x l) (x :: l) := by
  induction l with
  | nil => rfl
  | cons y ys ih =>
    simp only [insertAscBy]
    split
    · rfl
    · exact (List.Perm.cons y ih).trans (List.Perm.swap x y ys)

theorem sortAscBy_perm (l : List α) : List.Perm (sortAscBy f l) l := by
  induction l with
  | nil => rfl
  | cons x xs ih =>
    exact (insertAscBy_perm f x (sortAscBy f xs)).trans (List.Perm.cons x ih)

/-- Two lists that are sorted descending under the same priority and whose
per-priority filters agree are equal: the output of a stable descending
sort is unique, so any two compliant ES2019 sort implementations (and any
two runs) produce the same array. -/
theorem stableSortDescUnique :
    ∀ (l₁ l₂ : List α),
      l₁.Pairwise (fun a b => f b ≤ f a) → l₂.Pairwise (fun a b => f b ≤ f a) →
      (∀ c : β, l₁.filter (fun a => decide (f a = c)) =
        l₂.filter (fun a => decide (f a = c))) →
      l₁ = l₂ := by
  intro l₁
  induction l₁ with
  | nil =>
    intro l₂ _ _ hf
    cases l₂ with
    | nil => rfl
    | cons b t₂ =>
      have h := (hf (f b)).symm
      rw [List.filter_cons_of_pos (by simp)] at h
      simp at h
  | cons a t₁ ih =>
    intro l₂ h₁ h₂ hf
    cases l₂ with
    | nil =>
      have h := hf (f a)
      rw [List.filter_cons_of_pos (by simp)] at h
      simp at h
    | cons b t₂ =>
      rcases List.pairwise_cons.mp h₁ with ⟨ha, ht₁⟩
      rcases List.pairwise_cons.mp h₂ with ⟨hb, ht₂⟩
      have hfb : f b = f a := by
        by_contra hne
        have h1 := hf (f a)
        rw [List.filter_cons_of_pos (by simp),
          List.filter_cons_of_neg (by simpa using hne)] at h1
        have hat₂ : a ∈ t₂ :=
          List.mem_of_mem_filter (h1 ▸ List.mem_cons_self a _)
        have hlt : f a < f b := lt_of_le_of_ne (hb a hat₂) (fun h => hne h.symm)
        have h2 := hf (f b)
        rw [List.filter_cons_of_neg (by simp; exact fun h => hne (by rw [h])),
          List.filter_cons_of_pos (by simp)] at h2
        have hnil : t₁.filter (fun x => decide (f x = f b)) = [] := by
          refine List.filter_eq_nil_iff.mpr ?_
          intro x hx
          simp only [decide_eq_true_eq]
          intro hxb
          exact absurd (hxb ▸ ha x hx) (not_le.mpr hlt)
        rw [hnil] at h2
        exact absurd h2 (by simp)
      have hab : a = b := by
        have h1 := hf (f a)
        rw [List.filter_cons_of_pos (by simp),
          List.filter_cons_of_pos (by simpa using hfb)] at h1
        injection h1 with h1a _
      subst hab
      have htails : t₁ = t₂ := by
        apply ih t₂ ht₁ ht₂
        intro c
        have h1 := hf c
        by_cases hc : f a = c
        · rw [List.filter_cons_of_pos (by simpa using hc),
            List.filter_cons_of_pos (by simpa using hc)] at h1
          injection h1 with _ h1b
        · rw [List.filter_cons_of_neg (by simpa using hc),
            List.filter_cons_of_neg (by simpa using hc)] at h1
          exact h1
      rw [htails]

end StableSortLemmas

end BookViz

/-! ## Lemmas: order-preserving deduplication -/

namespace BookViz

section DedupLemmas

variable {α : Type} [DecidableEq α]

theorem mem_foldl_pushUnique (l : List α) :
    ∀ (acc : List α) (x : α), x ∈ l.foldl pushUnique acc ↔ x ∈ acc ∨ x ∈ l := by
  induction l with
  | nil => simp
  | cons a rest ih =>
    intro acc x
    simp only [List.foldl_cons]
    rw [ih]
    unfold pushUnique
    split
    · rename_i hmem
      constructor
      · rintro (h | h)
        · exact Or.inl h
        · exact Or.inr (List.mem_cons_of_mem _ h)
      · rintro (h | h)
        · exact Or.inl h
        · rcases List.mem_cons.mp h with h | h
          · exact Or.inl (h ▸ hmem)
          · exact Or.inr h
    · simp only [List.mem_append, List.mem_singleton, List.mem_cons]
      tauto

theorem nodup_foldl_pushUnique (l : List α) :
    ∀ (acc : List α), acc.Nodup → (l.foldl pushUnique acc).Nodup := by
  induction l with
  | nil => intro acc h; exact h
  | cons a rest ih =>
    intro acc hacc
    simp only [List.foldl_cons]
    apply ih
    unfold pushUnique
    split
    · exact hacc
    · rename_i hmem
      simp [List.nodup_append, hacc, hmem]

theorem nodup_dedupFold (l : List α) : (dedupFold l).Nodup :=
  nodup_foldl_pushUnique l [] List.nodup_nil

theorem mem_dedupFold (l : List α) (x : α) : x ∈ dedupFold l ↔ x ∈ l := by
  unfold dedupFold
  rw [mem_foldl_pushUnique]
  simp

theorem foldl_pushUnique_of_nodup (l : List α) :
    ∀ (acc : List α), (acc ++ l).Nodup → l.foldl pushUnique acc = acc ++ l := by
  induction l with
  | nil => intro acc _; simp
  | cons a rest ih =>
    intro acc hnd
    simp only [List.foldl_cons]
    have hna : a ∉ acc := by
      intro hmem
      have := List.disjoint_of_nodup_append hnd
      exact this hmem (List.mem_cons_self a rest)
    have hpu : pushUnique acc a = acc ++ [a] := by
      unfold pushUnique
      rw [if_neg hna]
    rw [hpu, ih (acc ++ [a]) (by simpa using hnd)]
    simp

theorem dedupFold_of_nodup (l : List α) (h : l.Nodup) : dedupFold l = l := by
  unfold dedupFold
  simpa using foldl_pushUnique_of_nodup l [] (by simpa using h)

end DedupLemmas

/-! ## Lemmas: strings and the column resolver -/

theorem toLowerS_data (s : String) : (toLowerS s).data = s.data.map lowerChar := rfl

theorem toLowerS_empty_iff (s : String) : toLowerS s = "" ↔ s = "" := by
  cases s with
  | mk d =>
    cases d with
    | nil => constructor <;> (intro h; rfl)
    | cons c cs =>
      constructor
      · intro h
        exfalso
        have hd := congrArg String.data h
        rw [toLowerS_data] at hd
        simp at hd
      · intro h
        exfalso
        have hd := congrArg String.data h
        simp at hd

/-- The fold that models the lowercase map: its result is either the
initial accumulator or a key of the list whose lowercased form is `c`. -/
theorem foldl_lta_cases (c : String) (keys : List String) :
    ∀ (acc : Option String),
      keys.foldl (fun acc k => if toLowerS k == c then some k else acc) acc = acc ∨
      ∃ k, keys.foldl (fun acc k => if toLowerS k == c then some k else acc) acc = some k ∧
        k ∈ keys ∧ toLowerS k = c := by
  induction keys with
  | nil => intro acc; exact Or.inl rfl
  | cons k0 ks ih =>
    intro acc
    simp only [List.foldl_cons]
    rcases ih (if toLowerS k0 == c then some k0 else acc) with h | ⟨k, hk, hmem, hlow⟩
    · rw [h]
      by_cases h0 : toLowerS k0 = c
      · right
        refine ⟨k0, ?_, List.mem_cons_self _ _, h0⟩
        rw [if_pos (by simpa using h0)]
      · left
        rw [if_neg (by simpa using h0)]
    · right
      exact ⟨k, hk, List.mem_cons_of_mem _ hmem, hlow⟩

theorem lowerToActual_some (keys : List String) (c k : String)
    (h : lowerToActual keys c = some k) : k ∈ keys ∧ toLowerS k = c := by
  rcases foldl_lta_cases c keys none with h2 | ⟨k2, hk2, hmem, hlow⟩
  · rw [lowerToActual] at h
    rw [h2] at h
    exact absurd h (by simp)
  · rw [lowerToActual] at h
    rw [hk2] at h
    have : k2 = k := by injection h
    exact this ▸ ⟨hmem, hlow⟩

/-- The fold never forgets a `some` accumulator. -/
theorem foldl_lta_some (c : String) (keys : List String) :
    ∀ (k : String), ∃ k2,
      keys.foldl (fun acc k => if toLowerS k == c then some k else acc) (some k) = some k2 := by
  induction keys with
  | nil => intro k; exact ⟨k, rfl⟩
  | cons k0 ks ih =>
    intro k
    simp only [List.foldl_cons]
    by_cases h0 : toLowerS k0 = c
    · rw [if_pos (by simpa using h0)]
      exact ih k0
    · rw [if_neg (by simpa using h0)]
      exact ih k

theorem lowerToActual_of_exists (keys : List String) (c : String)
    (h : ∃ k ∈ keys, toLowerS k = c) : ∃ k, lowerToActual keys c = some k := by
  unfold lowerToActual
  induction keys with
  | nil => simp at h
  | cons k0 ks ih =>
    simp only [List.foldl_cons]
    by_cases h0 : toLowerS k0 = c
    · rw [if_pos (by simpa using h0)]
      exact foldl_lta_some c ks k0
    · rw [if_neg (by simpa using h0)]
      apply ih
      rcases h with ⟨k, hk, hlow⟩
      rcases List.mem_cons.mp hk with hk | hk
      · exact absurd (hk ▸ hlow) h0
      · exact ⟨k, hk, hlow⟩

theorem hasMatch_iff (keys : List String) (c : String) :
    hasMatch keys c = true ↔ ∃ k ∈ keys, k ≠ "" ∧ toLowerS k = c := by
  unfold hasMatch
  rw [List.any_eq_true]
  constructor
  · rintro ⟨k, hk, hcond⟩
    rw [Bool.and_eq_true, decide_eq_true_eq, beq_iff_eq] at hcond
    exact ⟨k, hk, hcond.1, hcond.2⟩
  · rintro ⟨k, hk, hne, hlow⟩
    exact ⟨k, hk, by rw [Bool.and_eq_true, decide_eq_true_eq, beq_iff_eq]; exact ⟨hne, hlow⟩⟩

/-- When a candidate has a nonempty match, the map lookup yields a
nonempty key with that lowercased form, and `pickKey` returns it. -/
theorem lowerToActual_of_hasMatch (keys : List String) (c : String)
    (h : hasMatch keys c = true) :
    ∃ k, lowerToActual keys c = some k ∧ k ∈ keys ∧ k ≠ "" ∧ toLowerS k = c := by
  rcases (hasMatch_iff keys c).mp h with ⟨k0, hk0, hne0, hlow0⟩
  rcases lowerToActual_of_exists keys c ⟨k0, hk0, hlow0⟩ with ⟨k, hk⟩
  rcases lowerToActual_some keys c k hk with ⟨hmem, hlow⟩
  have hcne : c ≠ "" := by
    intro hc
    exact hne0 ((toLowerS_empty_iff k0).mp (hc ▸ hlow0))
  have hkne : k ≠ "" := by
    intro hk2
    refine hcne ?_
    rw [← hlow, hk2]
    rfl
  exact ⟨k, hk, hmem, hkne, hlow⟩

/-- When a candidate has no nonempty match, the resolver skips it. -/
theorem pickKeyAux_skip (keys : List String) (c : String) (cs : List String)
    (h : hasMatch keys c = false) :
    pickKeyAux keys (c :: cs) = pickKeyAux keys cs := by
  simp only [pickKeyAux]
  cases hl : lowerToActual keys c with
  | none => rfl
  | some k =>
    rcases lowerToActual_some keys c k hl with ⟨hmem, hlow⟩
    have hke : k = "" := by
      by_contra hne
      rw [(hasMatch_iff keys c).mpr ⟨k, hmem, hne, hlow⟩] at h
      exact absurd h (by simp)
    simp [hke]

end BookViz

namespace BookViz

theorem pickKeyAux_of_hasMatch (keys : List String) (c : String) (cs : List String)
    (h : hasMatch keys c = true) :
    ∃ k, pickKeyAux keys (c :: cs) = some k ∧ k ∈ keys ∧ k ≠ "" ∧ toLowerS k = c := by
  rcases lowerToActual_of_hasMatch keys c h with ⟨k, hl, hmem, hne, hlow⟩
  refine ⟨k, ?_, hmem, hne, hlow⟩
  simp only [pickKeyAux]
  rw [hl]
  simp [hne]

/-- Full characterisation of the resolver loop: `none` exactly when no
candidate has a nonempty matching key; a returned key is a nonempty field
name whose lowercased form is the first candidate with any nonempty
match. -/
theorem pickKeyAux_resolution (keys : List String) (cands : List String) :
    (pickKeyAux keys cands = none ↔ ∀ c ∈ cands, hasMatch keys c = false) ∧
    (∀ k, pickKeyAux keys cands = some k →
      k ∈ keys ∧ k ≠ "" ∧
      ∃ cs₁ cs₂, cands = cs₁ ++ toLowerS k :: cs₂ ∧
        ∀ c ∈ cs₁, hasMatch keys c = false) := by
  induction cands with
  | nil =>
    exact ⟨by simp [pickKeyAux], by intro k h; simp [pickKeyAux] at h⟩
  | cons c cs ih =>
    by_cases hm : hasMatch keys c = true
    · rcases pickKeyAux_of_hasMatch keys c cs hm with ⟨k, hk, hmem, hne, hlow⟩
      constructor
      · rw [hk]
        constructor
        · intro h; exact absurd h (by simp)
        · intro h
          rw [h c (List.mem_cons_self c cs)] at hm
          exact absurd hm (by simp)
      · intro k2 hk2
        rw [hk] at hk2
        injection hk2 with hk2
        subst hk2
        exact ⟨hmem, hne, [], cs, by simp [hlow], by simp⟩
    · have hmf : hasMatch keys c = false := by simpa using hm
      have hskip := pickKeyAux_skip keys c cs hmf
      constructor
      · rw [hskip, ih.1]
        constructor
        · intro h c2 hc2
          rcases List.mem_cons.mp hc2 with h2 | h2
          · subst h2; exact hmf
          · exact h c2 h2
        · intro h c2 hc2
          exact h c2 (List.mem_cons_of_mem _ hc2)
      · intro k hk
        rw [hskip] at hk
        rcases ih.2 k hk with ⟨hmem, hne, cs₁, cs₂, heq, hall⟩
        refine ⟨hmem, hne, c :: cs₁, cs₂, by rw [heq]; rfl, ?_⟩
        intro c2 hc2
        rcases List.mem_cons.mp hc2 with h2 | h2
        · subst h2; exact hmf
        · exact hall c2 h2

/-! ### Uppercase candidates can never match (the map keys are all
lowercased) -/

theorem lowerChar_not_upper (ch : Char) :
    ¬ (65 ≤ (lowerChar ch).toNat ∧ (lowerChar ch).toNat ≤ 90) := by
  unfold lowerChar
  split
  · rename_i h
    obtain ⟨h1, h2⟩ := h
    have hn : ∀ n : ℕ, 65 ≤ n → n ≤ 90 →
        ¬ (65 ≤ (Char.ofNat (n + 32)).toNat ∧ (Char.ofNat (n + 32)).toNat ≤ 90) := by
      intro n hl hr
      interval_cases n <;> decide
    exact hn ch.toNat h1 h2
  · rename_i h
    exact h

theorem hasUpperA_toLowerS (k : String) : hasUpperA (toLowerS k) = false := by
  unfold hasUpperA
  rw [List.any_eq_false]
  intro ch hch
  rw [toLowerS_data] at hch
  rcases List.mem_map.mp hch with ⟨ch0, _, hch0⟩
  subst hch0
  simp only [Bool.and_eq_true, decide_eq_true_eq, not_and]
  intro h1 h2
  exact lowerChar_not_upper ch0 ⟨h1, h2⟩

theorem hasMatch_false_of_upper (keys : List String) (c : String)
    (h : hasUpperA c = true) : hasMatch keys c = false := by
  cases hm : hasMatch keys c with
  | false => rfl
  | true =>
    exfalso
    rcases (hasMatch_iff keys c).mp hm with ⟨k, _, _, hlow⟩
    rw [← hlow, hasUpperA_toLowerS] at h
    exact absurd h (by simp)

/-- Skipping an unmatchable candidate anywhere in the list leaves the
resolution unchanged. -/
theorem pickKeyAux_middle (keys : List String) (c : String)
    (h : hasMatch keys c = false) :
    ∀ (cs₁ cs₂ : List String),
      pickKeyAux keys (cs₁ ++ c :: cs₂) = pickKeyAux keys (cs₁ ++ cs₂) := by
  intro cs₁
  induction cs₁ with
  | nil => intro cs₂; exact pickKeyAux_skip keys c cs₂ h
  | cons c0 cs ih =>
    intro cs₂
    simp only [List.cons_append, pickKeyAux, List.append_eq]
    rw [ih cs₂]

end BookViz

namespace BookViz

/-! ## Claim C4 (Value Coercion) -/

/-- Claim C4, counterexample: the coercion is not free of silently-wrong
zero fallbacks.  JS `Number(null)` and `Number("")` are `0`, so `toNumber`
maps `null` and the empty string — values that do not represent any finite
real number — to the finite value `0` instead of the invalid marker; and
`isFiniteNumber` rejects the numeric-looking text `"3.5"` rather than
accepting it. -/
theorem toNumber_zero_fallback_cex :
    toNumber (some JSValue.null) = some 0 ∧
    toNumber (some (JSValue.str "")) = some 0 ∧
    isFiniteNumber (some (JSValue.str "3.5")) = false :=
  ⟨by with_unfolding_all decide, by with_unfolding_all decide, rfl⟩

/-- Claim C4, amended: `toNumber` returns the (finite) numeric value of an
already-numeric finite input or of numeric-looking text, and returns the
explicit invalid marker for NaN and the infinities (numeric or textual)
and for `undefined`; however JS `Number` coercion maps `null`, booleans,
and empty/whitespace-only text to finite numbers (`null` and `""` to 0),
so those non-numeric inputs produce a number — in particular the 0
fallback — rather than the invalid marker; and `isFiniteNumber` (the
ParallelCoords guard) accepts only already-numeric finite values,
rejecting all text. -/
theorem toNumber_finite_or_invalid :
    (∀ q : ℚ, toNumber (some (.num (.finite q))) = some q) ∧
    (toNumber (some (.num .nan)) = none ∧
     toNumber (some (.num .posInf)) = none ∧
     toNumber (some (.num .negInf)) = none) ∧
    (∀ s q, strToNumber s = .finite q → toNumber (some (.str s)) = some q) ∧
    (∀ s, strToNumber s = .nan ∨ strToNumber s = .posInf ∨ strToNumber s = .negInf →
      toNumber (some (.str s)) = none) ∧
    toNumber none = none ∧
    toNumber (some .null) = some 0 ∧
    (∀ b, toNumber (some (.boolean b)) = some (if b then 1 else 0)) ∧
    (∀ s, isFiniteNumber (some (.str s)) = false) ∧
    (∀ n, isFiniteNumber (some (.num n)) = true ↔ ∃ q, n = .finite q) := by
  refine ⟨fun q => rfl, ⟨rfl, rfl, rfl⟩, ?_, ?_, rfl, rfl, ?_, fun s => rfl, ?_⟩
  · intro s q h
    simp only [toNumber, jsNumberOf]
    rw [h]
  · intro s h
    simp only [toNumber, jsNumberOf]
    rcases h with h | h | h <;> rw [h]
  · intro b
    cases b <;> rfl
  · intro n
    cases n with
    | finite q => simp [isFiniteNumber]
    | posInf => simp [isFiniteNumber]
    | negInf => simp [isFiniteNumber]
    | nan => simp [isFiniteNumber]

/-- Witness for the amended C4 theorem: the numeric-looking text `"3.5"`
is accepted with value 7/2. -/
theorem toNumber_finite_or_invalid_witness :
    toNumber (some (JSValue.str "3.5")) = some (7 / 2) :=
  toNumber_finite_or_invalid.2.2.1 "3.5" (7 / 2) (by with_unfolding_all decide)

/-! ## Claim C5 (Column Resolver) -/

/-- Claim C5, counterexample: a field actually named by the empty string
lowercases to the candidate `""`, yet the resolver returns no match — the
JS truthiness test `if (actual)` treats the empty-string field name as
absent, so "returns the first actual field name whose lowercased form
equals one of the candidates" fails at this input. -/
theorem pickKey_empty_name_cex :
    pickKey [("", JSValue.null)] [""] = none ∧
    "" ∈ rowKeys [("", JSValue.null)] ∧ toLowerS "" = "" := by
  refine ⟨by decide, by decide, rfl⟩

/-- Claim C5, amended: for every sample row and candidate list, `pickKey`
returns no-match exactly when the row is empty or no candidate has a
matching nonempty field name; and any returned key is a nonempty actual
field name of the row whose lowercased form is the first candidate (in
candidate-list order, not row-key order) that any nonempty field name
matches.  (The only deviation from the original claim: a field whose
actual name is the empty string can never be matched or returned, because
the resolver's `if (actual)` truthiness test skips it.) -/
theorem pickKey_resolution (row : Row) (cands : List String) :
    (pickKey row cands = none ↔ ∀ c ∈ cands, hasMatch (rowKeys row) c = false) ∧
    (∀ k, pickKey row cands = some k →
      k ∈ rowKeys row ∧ k ≠ "" ∧
      ∃ cs₁ cs₂, cands = cs₁ ++ toLowerS k :: cs₂ ∧
        ∀ c ∈ cs₁, hasMatch (rowKeys row) c = false) :=
  pickKeyAux_resolution (rowKeys row) cands

/-- Witness for the amended C5 theorem at a concrete row and candidate
list: the key `Average_Rating` is resolved by the candidate
`average_rating`. -/
theorem pickKey_resolution_witness :
    "Average_Rating" ∈ rowKeys [("Average_Rating", JSValue.null)] ∧
    "Average_Rating" ≠ "" ∧
    ∃ cs₁ cs₂, ["average_rating"] = cs₁ ++ toLowerS "Average_Rating" :: cs₂ ∧
      ∀ c ∈ cs₁, hasMatch (rowKeys [("Average_Rating", JSValue.null)]) c = false :=
  (pickKey_resolution [("Average_Rating", JSValue.null)] ["average_rating"]).2
    "Average_Rating" (by decide)

/-! ## Claim C10 (uppercase candidates are unreachable) -/

/-- Claim C10: the resolver looks every candidate up verbatim in a map
keyed by the lowercased field names, so a candidate containing an ASCII
uppercase letter can never match any field: deleting it from the
candidate list never changes the result.  In particular the final
`publicationYear` entry of the heatmap's year-key candidate list is
unreachable: resolution over the full list equals resolution over the
first five candidates, for every row. -/
theorem pickKey_upper_unreachable :
    (∀ (row : Row) (cs₁ cs₂ : List String) (c : String), hasUpperA c = true →
      pickKey row (cs₁ ++ c :: cs₂) = pickKey row (cs₁ ++ cs₂)) ∧
    (∀ row : Row, pickKey row Heat.yearCandidates = pickKey row (Heat.yearCandidates.take 5)) := by
  have main : ∀ (row : Row) (cs₁ cs₂ : List String) (c : String), hasUpperA c = true →
      pickKey row (cs₁ ++ c :: cs₂) = pickKey row (cs₁ ++ cs₂) := by
    intro row cs₁ cs₂ c hc
    exact pickKeyAux_middle (rowKeys row) c
      (hasMatch_false_of_upper (rowKeys row) c hc) cs₁ cs₂
  refine ⟨main, ?_⟩
  intro row
  have h := main row
      ["publication_year", "published_year", "original_publication_year",
       "year", "publicationyear"]
      [] "publicationYear" (by decide)
  exact h

/-- Witness for C10: dropping `publicationYear` from a candidate list
leaves resolution unchanged on a row whose only key is
`publicationYear`. -/
theorem pickKey_upper_unreachable_witness :
    pickKey [("publicationYear", JSValue.null)] (["x"] ++ "publicationYear" :: []) =
      pickKey [("publicationYear", JSValue.null)] (["x"] ++ []) :=
  pickKey_upper_unreachable.1 [("publicationYear", JSValue.null)] ["x"] [] "publicationYear"
    (by decide)

end BookViz

namespace BookViz.Heat

/-! ## Claim C6 (rating bucketing) -/

/-- Claim C6, counterexample: 0.49999999 and 0.5 lie on opposite sides of
a 0.5 boundary, so flooring to the nearest 0.5 increment necessarily
separates them: the code maps 0.49999999 to bucket key 0.0 and 0.5 to
bucket key 0.5 — different keys, contradicting the claim's "0.49999999
produces the same bucket key as 0.5".  (At these inputs the double
computation agrees exactly with the rational model: the double nearest
0.49999999 is below 0.5, and division by 0.5 and the subsequent floor are
exact.) -/
theorem ratingBinOf_drift_cex :
    ratingBinOf (49999999 / 100000000) = 0 ∧
    ratingBinOf (1 / 2) = 1 / 2 ∧
    ratingBinOf (49999999 / 100000000) ≠ ratingBinOf (1 / 2) :=
  ⟨by with_unfolding_all decide, by with_unfolding_all decide,
   by with_unfolding_all decide⟩

/-- Claim C6, amended: `ratingBinOf` floors the rating to the nearest 0.5
increment — the bucket is the largest half-integer not exceeding the
rating, so `bin ≤ r < bin + 0.5` — and the round-to-one-decimal step is
exact (the bucket equals `⌊2r⌋ / 2` on the nose, a clean one-decimal
value); consequently two ratings share a bucket key exactly when they lie
in the same half-open 0.5 interval, and inputs on opposite sides of a
boundary (such as 0.49999999 and 0.5) necessarily receive different
keys. -/
theorem ratingBinOf_halfFloor (q : ℚ) :
    ratingBinOf q = (⌊2 * q⌋ : ℚ) / 2 ∧
    ratingBinOf q ≤ q ∧ q < ratingBinOf q + 1 / 2 := by
  have h2q : q / (1 / 2 : ℚ) = 2 * q := by ring
  have hkey : ratingBinOf q = (⌊2 * q⌋ : ℚ) / 2 := by
    simp only [ratingBinOf, jsRound]
    rw [h2q]
    have h1 : ((⌊2 * q⌋ : ℚ) * (1 / 2)) * 10 + 1 / 2 =
        (1 / 2 : ℚ) + ((5 * ⌊2 * q⌋ : ℤ) : ℚ) := by
      push_cast
      ring
    rw [h1, Int.floor_add_int]
    have h0 : ⌊(1 / 2 : ℚ)⌋ = 0 := by norm_num
    rw [h0]
    push_cast
    ring
  refine ⟨hkey, ?_, ?_⟩
  · rw [hkey]
    have h := Int.floor_le (2 * q)
    linarith
  · rw [hkey]
    have h := Int.lt_floor_add_one (2 * q)
    linarith

end BookViz.Heat

namespace BookViz

/-! ## Claim C3 (Categorical Aggregator ranking) -/

/-- Claim C3: the Categorical Aggregator output is sorted descending by
count; exact-count ties keep their first-insertion order (for each count
value, the output's entries of that count are an initial segment of the
count map's insertion-ordered entries of that count); the output is
truncated to `topN`, and when fewer than `topN` distinct categories exist
the output contains exactly all of them; and on the spec's example rows
`[{genre:"Fantasy, Drama"}, {genre:"Drama"}, {genre:"Fantasy"}]` with
`topN = 2` it returns Fantasy (count 2) first, then Drama (count 2). -/
theorem aggregateGenres_ranked (rows : List Genre.GRow) (topN : ℕ) :
    (Genre.aggregateGenres rows topN).Pairwise (fun a b => b.2 ≤ a.2) ∧
    (∀ c : ℕ, ∃ t, (Genre.countsFor rows).filter (fun p => decide (p.2 = c)) =
        (Genre.aggregateGenres rows topN).filter (fun p => decide (p.2 = c)) ++ t) ∧
    (Genre.aggregateGenres rows topN).length = min topN (Genre.countsFor rows).length ∧
    ((Genre.countsFor rows).length ≤ topN →
      ∀ p, p ∈ Genre.aggregateGenres rows topN ↔ p ∈ Genre.countsFor rows) ∧
    Genre.aggregateGenres Genre.exampleRows 2 = [("Fantasy", 2), ("Drama", 2)] := by
  refine ⟨?_, ?_, ?_, ?_, by decide⟩
  · exact List.Pairwise.sublist (List.take_sublist topN _)
      (sortDescBy_sorted (fun p => p.2) (Genre.countsFor rows))
  · intro c
    refine ⟨((sortDescBy (fun p => p.2) (Genre.countsFor rows)).drop topN).filter
      (fun p => decide (p.2 = c)), ?_⟩
    rw [← sortDescBy_filter (fun p => p.2) (Genre.countsFor rows) c]
    simp only [Genre.aggregateGenres]
    rw [← List.filter_append, List.take_append_drop]
  · simp only [Genre.aggregateGenres, List.length_take,
      (sortDescBy_perm (fun p : String × ℕ => p.2) (Genre.countsFor rows)).length_eq]
  · intro h p
    have hlen : (sortDescBy (fun p : String × ℕ => p.2) (Genre.countsFor rows)).length ≤ topN := by
      rw [(sortDescBy_perm (fun p : String × ℕ => p.2) (Genre.countsFor rows)).length_eq]
      exact h
    simp only [Genre.aggregateGenres]
    rw [List.take_of_length_le hlen]
    exact (sortDescBy_perm (fun p : String × ℕ => p.2) (Genre.countsFor rows)).mem_iff

/-- Witness for C3 at concrete inputs (all categories returned when fewer
than `topN` exist). -/
theorem aggregateGenres_ranked_witness :
    ("Fantasy", 2) ∈ Genre.aggregateGenres Genre.exampleRows 5 ↔
      ("Fantasy", 2) ∈ Genre.countsFor Genre.exampleRows :=
  (aggregateGenres_ranked Genre.exampleRows 5).2.2.2.1 (by decide) ("Fantasy", 2)

/-! ## Claim C8 (Categorical Aggregator determinism) -/

/-- Claim C8: the Categorical Aggregator is deterministic.  Its only
potential source of run-to-run variation is `Array.prototype.sort`, which
ES2019 requires to be a consistent-comparator stable sort; a stable
descending sort is unique (`stableSortDescUnique`), so ANY compliant sort
implementation — hence any two runs on identical `(rows, topN)` — yields
the same, identically ordered output as the reference aggregator. -/
theorem aggregateGenres_deterministic :
    ∀ (sortImpl : List (String × ℕ) → List (String × ℕ)),
      (∀ l, (sortImpl l).Pairwise (fun a b => b.2 ≤ a.2)) →
      (∀ l (c : ℕ), (sortImpl l).filter (fun p => decide (p.2 = c)) =
        l.filter (fun p => decide (p.2 = c))) →
      ∀ (rows : List Genre.GRow) (topN : ℕ),
        (sortImpl (Genre.countsFor rows)).take topN = Genre.aggregateGenres rows topN := by
  intro sortImpl hsorted hstable rows topN
  have hs : sortImpl (Genre.countsFor rows) =
      sortDescBy (fun p => p.2) (Genre.countsFor rows) := by
    apply stableSortDescUnique (fun p : String × ℕ => p.2)
    · exact hsorted _
    · exact sortDescBy_sorted _ _
    · intro c
      rw [hstable, sortDescBy_filter]
  rw [hs]
  rfl

/-- Witness for C8: the reference stable sort itself satisfies the ES2019
contract, so the determinism theorem applies to it at the example
dataset. -/
theorem aggregateGenres_deterministic_witness :
    (sortDescBy (fun p : String × ℕ => p.2) (Genre.countsFor Genre.exampleRows)).take 2 =
      Genre.aggregateGenres Genre.exampleRows 2 :=
  aggregateGenres_deterministic (sortDescBy (fun p => p.2))
    (fun l => sortDescBy_sorted (fun p => p.2) l)
    (fun l c => sortDescBy_filter (fun p => p.2) l c)
    Genre.exampleRows 2

end BookViz

namespace BookViz.Heat

/-! ## Lemmas: the cartesian grid build of the heatmap -/

theorem grid_length (ds : List ℤ) (bs : List ℚ) (cnt : ℤ → ℚ → ℕ) :
    (ds.flatMap fun d => bs.map fun b => HeatCell.mk d b (cnt d b)).length =
      ds.length * bs.length := by
  induction ds with
  | nil => simp
  | cons d rest ih =>
    simp only [List.flatMap_cons, List.length_append, List.length_map, ih,
      List.length_cons]
    ring

theorem grid_mem (ds : List ℤ) (bs : List ℚ) (cnt : ℤ → ℚ → ℕ) (c : HeatCell) :
    c ∈ (ds.flatMap fun d => bs.map fun b => HeatCell.mk d b (cnt d b)) ↔
      ∃ d ∈ ds, ∃ b ∈ bs, c = HeatCell.mk d b (cnt d b) := by
  simp only [List.mem_flatMap, List.mem_map]
  constructor
  · rintro ⟨d, hd, b, hb, hc⟩
    exact ⟨d, hd, b, hb, hc.symm⟩
  · rintro ⟨d, hd, b, hb, hc⟩
    exact ⟨d, hd, b, hb, hc.symm⟩

theorem map_pair_grid (ds : List ℤ) (bs : List ℚ) (cnt : ℤ → ℚ → ℕ) :
    ((ds.flatMap fun d => bs.map fun b => HeatCell.mk d b (cnt d b)).map
        (fun c => (c.decade, c.ratingBin))) =
      ds.flatMap fun d => bs.map fun b => (d, b) := by
  induction ds with
  | nil => simp
  | cons d rest ih =>
    simp only [List.flatMap_cons, List.map_append, List.map_map, ih]
    rfl

theorem prodPairs_nodup (ds : List ℤ) (bs : List ℚ)
    (hds : ds.Nodup) (hbs : bs.Nodup) :
    (ds.flatMap fun d => bs.map fun b => ((d, b) : ℤ × ℚ)).Nodup := by
  induction ds with
  | nil => simp
  | cons d rest ih =>
    rcases List.nodup_cons.mp hds with ⟨hdnm, hrest⟩
    simp only [List.flatMap_cons]
    rw [List.nodup_append]
    refine ⟨?_, ih hrest, ?_⟩
    · exact hbs.map (fun b1 b2 h => by simpa using h)
    · intro x hx1 hx2
      rcases List.mem_map.mp hx1 with ⟨b, _, hxb⟩
      rcases List.mem_flatMap.mp hx2 with ⟨d2, hd2, hx2b⟩
      rcases List.mem_map.mp hx2b with ⟨b2, _, hxb2⟩
      have : d = d2 := by
        have h1 : x.1 = d := by rw [← hxb]
        have h2 : x.1 = d2 := by rw [← hxb2]
        rw [← h1, h2]
      exact hdnm (this ▸ hd2)

/-! ## Claim C2 (Binning Aggregator dense grid) -/

/-- Claim C2: the heatmap grid is dense over the observed domains.  The
`decades` and `ratingBins` lists are exactly the distinct observed decade
and rating-bucket values of the filtered rows (`itemsOf`); the grid holds
exactly one cell per (decade, bucket) pair drawn from them — its size is
the product of the two domain sizes, the (decade, bucket) projections are
pairwise distinct, a cell for (d, b) exists exactly when d is an observed
decade and b an observed bucket — and a cell whose combination was never
observed carries count 0. -/
theorem heatPrepared_dense_grid (rows : List Row) (minY maxY : Option ℚ) :
    (heatPrepared rows minY maxY).data.length =
      (heatPrepared rows minY maxY).decades.length *
        (heatPrepared rows minY maxY).ratingBins.length ∧
    (heatPrepared rows minY maxY).decades.Nodup ∧
    (∀ d : ℤ, d ∈ (heatPrepared rows minY maxY).decades ↔
      d ∈ (itemsOf rows minY maxY).map HeatItem.decade) ∧
    (heatPrepared rows minY maxY).ratingBins.Nodup ∧
    (∀ b : ℚ, b ∈ (heatPrepared rows minY maxY).ratingBins ↔
      b ∈ (itemsOf rows minY maxY).map HeatItem.ratingBin) ∧
    ((heatPrepared rows minY maxY).data.map (fun c => (c.decade, c.ratingBin))).Nodup ∧
    (∀ (d : ℤ) (b : ℚ),
      (∃ c ∈ (heatPrepared rows minY maxY).data, c.decade = d ∧ c.ratingBin = b) ↔
      (d ∈ (itemsOf rows minY maxY).map HeatItem.decade ∧
       b ∈ (itemsOf rows minY maxY).map HeatItem.ratingBin)) ∧
    (∀ c ∈ (heatPrepared rows minY maxY).data,
      (∀ it ∈ itemsOf rows minY maxY,
        ¬(it.decade = c.decade ∧ it.ratingBin = c.ratingBin)) →
      c.count = 0) := by
  have hdec : (heatPrepared rows minY maxY).decades =
      sortAscBy id (dedupFold ((itemsOf rows minY maxY).map HeatItem.decade)) := rfl
  have hbin : (heatPrepared rows minY maxY).ratingBins =
      sortAscBy id (dedupFold ((itemsOf rows minY maxY).map HeatItem.ratingBin)) := rfl
  have hdata : (heatPrepared rows minY maxY).data =
      (heatPrepared rows minY maxY).decades.flatMap (fun dec =>
        (heatPrepared rows minY maxY).ratingBins.map (fun bin =>
          HeatCell.mk dec bin (lookupD
            ((itemsOf rows minY maxY).foldl
              (fun m it => bump m (it.decade, it.ratingBin)) [])
            (dec, bin)))) := rfl
  have hdnodup : (heatPrepared rows minY maxY).decades.Nodup := by
    rw [hdec, (sortAscBy_perm id _).nodup_iff]
    exact nodup_dedupFold _
  have hbnodup : (heatPrepared rows minY maxY).ratingBins.Nodup := by
    rw [hbin, (sortAscBy_perm id _).nodup_iff]
    exact nodup_dedupFold _
  have hdmem : ∀ d : ℤ, d ∈ (heatPrepared rows minY maxY).decades ↔
      d ∈ (itemsOf rows minY maxY).map HeatItem.decade := by
    intro d
    rw [hdec, (sortAscBy_perm id _).mem_iff, mem_dedupFold]
  have hbmem : ∀ b : ℚ, b ∈ (heatPrepared rows minY maxY).ratingBins ↔
      b ∈ (itemsOf rows minY maxY).map HeatItem.ratingBin := by
    intro b
    rw [hbin, (sortAscBy_perm id _).mem_iff, mem_dedupFold]
  refine ⟨?_, hdnodup, hdmem, hbnodup, hbmem, ?_, ?_, ?_⟩
  · rw [hdata]
    exact grid_length _ _ _
  · rw [hdata, map_pair_grid]
    exact prodPairs_nodup _ _ hdnodup hbnodup
  · intro d b
    constructor
    · rintro ⟨c, hc, hcd, hcb⟩
      rw [hdata] at hc
      rcases (grid_mem _ _ _ c).mp hc with ⟨d2, hd2, b2, hb2, hceq⟩
      subst hceq
      simp only at hcd hcb
      subst hcd
      subst hcb
      exact ⟨(hdmem _).mp hd2, (hbmem _).mp hb2⟩
    · rintro ⟨hd, hb⟩
      refine ⟨HeatCell.mk d b (lookupD
        ((itemsOf rows minY maxY).foldl
          (fun m it => bump m (it.decade, it.ratingBin)) []) (d, b)), ?_, rfl, rfl⟩
      rw [hdata]
      exact (grid_mem _ _ _ _).mpr ⟨d, (hdmem _).mpr hd, b, (hbmem _).mpr hb, rfl⟩
  · intro c hc hno
    rw [hdata] at hc
    rcases (grid_mem _ _ _ c).mp hc with ⟨d2, _, b2, _, hceq⟩
    subst hceq
    simp only
    rw [show ((itemsOf rows minY maxY).foldl
        (fun m it => bump m (it.decade, it.ratingBin)) []) =
        ((itemsOf rows minY maxY).foldl
          (fun m it => bump m ((fun it => (it.decade, it.ratingBin)) it)) []) from rfl,
      lookupD_foldl_bump]
    rw [lookupD_nil, Nat.zero_add]
    apply List.countP_eq_zero.mpr
    intro it hit
    simp only [decide_eq_true_eq, Prod.mk.injEq]
    intro hpair
    exact hno it hit ⟨hpair.1, hpair.2⟩

set_option maxRecDepth 8000 in
/-- Witness for C2 at the spec's example dataset (years 1995, 2001, 2004;
ratings 3.2, 3.6, 4.9): the cell (1990, bucket 3.5) is in the grid, no
filtered row has that combination, and the theorem yields its count 0. -/
theorem heatPrepared_dense_grid_witness :
    (HeatCell.mk 1990 ((7 : ℚ) / 2)
      (lookupD ((itemsOf hRows (some 1900) none).foldl
        (fun m it => bump m (it.decade, it.ratingBin)) [])
        (1990, (7 : ℚ) / 2))).count = 0 :=
  (heatPrepared_dense_grid hRows (some 1900) none).2.2.2.2.2.2.2 _
    (by with_unfolding_all decide) (by with_unfolding_all decide)

end BookViz.Heat

namespace BookViz.PC

/-! ## Lemmas: the bounded dimension selection -/

theorem dimsFor_sublist (cb : List String) (M m : ℕ) :
    (dimsFor cb M m).Sublist cb := by
  simp only [dimsFor]
  split_ifs <;>
    first
      | exact List.take_sublist _ _
      | exact (List.take_sublist _ _).trans (List.take_sublist _ _)

theorem dimsFor_length (cb : List String) (M m : ℕ) :
    (dimsFor cb M m).length =
      if M = 0 then min m cb.length
      else if min M cb.length < m then min m cb.length
      else min M cb.length := by
  simp only [dimsFor, apply_ite List.length, List.length_take]
  split_ifs <;> omega

/-! ## Lemmas: the combined priority ordering -/

theorem combinedFor_nodup (pref byVar : List String) :
    (combinedFor pref byVar).Nodup :=
  nodup_foldl_pushUnique _ _ (nodup_foldl_pushUnique _ _ List.nodup_nil)

theorem combinedFor_mem (pref byVar : List String) (x : String) :
    x ∈ combinedFor pref byVar ↔ x ∈ pref ∨ x ∈ byVar := by
  unfold combinedFor
  rw [mem_foldl_pushUnique, mem_foldl_pushUnique]
  simp

theorem preferredFor_subset (ks : List String) :
    ∀ x ∈ preferredFor ks, x ∈ ks := by
  suffices h : ∀ (gs : List (List String)) (acc : List String),
      (∀ x ∈ acc, x ∈ ks) →
      ∀ x ∈ gs.foldl
        (fun acc group =>
          match group.findSome?
              (fun al => ks.find? (fun k => toLowerS k == toLowerS al)) with
          | some actual => acc ++ [actual]
          | none => acc) acc, x ∈ ks by
    intro x hx
    exact h preferredGroups [] (by simp) x hx
  intro gs
  induction gs with
  | nil => intro acc hacc x hx; exact hacc x hx
  | cons g gs ih =>
    intro acc hacc x hx
    simp only [List.foldl_cons] at hx
    refine ih _ ?_ x hx
    intro y hy
    cases hfs : g.findSome?
        (fun al => ks.find? (fun k => toLowerS k == toLowerS al)) with
    | none =>
      simp only [hfs] at hy
      exact hacc y hy
    | some actual =>
      simp only [hfs] at hy
      rcases List.mem_append.mp hy with h | h
      · exact hacc y h
      · rcases List.exists_of_findSome?_eq_some hfs with ⟨al, _, hfind⟩
        rw [List.mem_singleton.mp h]
        exact List.mem_of_find?_eq_some hfind

theorem statOf_key (rows : List Row) (k : String) : (statOf rows k).key = k := rfl

theorem map_key_filter_map (rows : List Row) (l : List String) (p : Stat → Bool) :
    ((l.map (statOf rows)).filter p).map Stat.key =
      l.filter (fun k => p (statOf rows k)) := by
  induction l with
  | nil => rfl
  | cons k ks ih =>
    by_cases h : p (statOf rows k) <;>
      simp [List.filter_cons, h, ih, statOf_key]

theorem statsFor_keys_sublist (rows : List Row) (keys : List String) :
    ((statsFor rows keys).map Stat.key).Sublist keys := by
  unfold statsFor
  rw [List.filter_filter, map_key_filter_map]
  refine (List.filter_sublist _).trans ?_
  unfold numericCandidates
  exact (List.filter_sublist _).trans (List.filter_sublist _)

theorem statsFor_keys_nodup (rows : List Row) (keys : List String)
    (h : keys.Nodup) : ((statsFor rows keys).map Stat.key).Nodup :=
  h.sublist (statsFor_keys_sublist rows keys)

/-- Under distinct first-row keys, the combined priority ordering is a
permutation-in-length of the surviving candidates: its length equals the
number of surviving stats. -/
theorem combined_length (rows : List Row) (keys : List String)
    (hkeys : keys.Nodup) :
    (combinedFor (preferredFor ((statsFor rows keys).map Stat.key))
      ((sortDescBy (fun d => d.var) (statsFor rows keys)).map Stat.key)).length =
      (statsFor rows keys).length := by
  have hperm : List.Perm
      ((sortDescBy (fun d => d.var) (statsFor rows keys)).map Stat.key)
      ((statsFor rows keys).map Stat.key) :=
    (sortDescBy_perm (fun d => d.var) (statsFor rows keys)).map Stat.key
  have hsub1 : ∀ x ∈ combinedFor (preferredFor ((statsFor rows keys).map Stat.key))
      ((sortDescBy (fun d => d.var) (statsFor rows keys)).map Stat.key),
      x ∈ (statsFor rows keys).map Stat.key := by
    intro x hx
    rcases (combinedFor_mem _ _ x).mp hx with h | h
    · exact preferredFor_subset _ x h
    · exact hperm.mem_iff.mp h
  have hsub2 : ∀ x ∈ (statsFor rows keys).map Stat.key,
      x ∈ combinedFor (preferredFor ((statsFor rows keys).map Stat.key))
        ((sortDescBy (fun d => d.var) (statsFor rows keys)).map Stat.key) := by
    intro x hx
    exact (combinedFor_mem _ _ x).mpr (Or.inr (hperm.mem_iff.mpr hx))
  have hle1 : (combinedFor (preferredFor ((statsFor rows keys).map Stat.key))
      ((sortDescBy (fun d => d.var) (statsFor rows keys)).map Stat.key)).length ≤
      ((statsFor rows keys).map Stat.key).length :=
    ((combinedFor_nodup _ _).subperm hsub1).length_le
  have hle2 : ((statsFor rows keys).map Stat.key).length ≤
      (combinedFor (preferredFor ((statsFor rows keys).map Stat.key))
        ((sortDescBy (fun d => d.var) (statsFor rows keys)).map Stat.key)).length :=
    ((statsFor_keys_nodup rows keys hkeys).subperm hsub2).length_le
  have := Nat.le_antisymm hle1 hle2
  rw [List.length_map] at this
  exact this

/-- The selected-dimension count of the `prepared` memo, in closed form:
with `S` surviving candidates, `maxDims = 0` yields `min minDims S`
dimensions (the `max(1, ...)` clamp is undone by the subsequent
truncation), and otherwise the count is `min maxDims S`, re-raised to
`min minDims S` when that cut is shorter than `minDims`. -/
theorem prepared_dims_length (rows : List Row) (M m mL : ℕ)
    (hkeys : (rowKeys (rows.headD [])).Nodup) :
    (prepared rows M m mL).dims.length =
      if M = 0 then min m (survivors rows).length
      else if min M (survivors rows).length < m then min m (survivors rows).length
      else min M (survivors rows).length := by
  cases rows with
  | nil =>
    have h0 : (prepared ([] : List Row) M m mL).dims.length = 0 := rfl
    have hs : (survivors ([] : List Row)).length = 0 := rfl
    rw [h0, hs]
    split_ifs <;> omega
  | cons row0 rest =>
    have hdims : (prepared (row0 :: rest) M m mL).dims =
        dedupFold (dimsFor
          (combinedFor
            (preferredFor ((statsFor (row0 :: rest) (rowKeys row0)).map Stat.key))
            ((sortDescBy (fun d => d.var)
              (statsFor (row0 :: rest) (rowKeys row0))).map Stat.key))
          M m) := rfl
    have hsurv : survivors (row0 :: rest) = statsFor (row0 :: rest) (rowKeys row0) := rfl
    have hnodup : (dimsFor
        (combinedFor
          (preferredFor ((statsFor (row0 :: rest) (rowKeys row0)).map Stat.key))
          ((sortDescBy (fun d => d.var)
            (statsFor (row0 :: rest) (rowKeys row0))).map Stat.key))
        M m).Nodup :=
      (combinedFor_nodup _ _).sublist (dimsFor_sublist _ M m)
    rw [hdims, dedupFold_of_nodup _ hnodup, dimsFor_length, hsurv,
      combined_length (row0 :: rest) (rowKeys row0) (by exact hkeys)]

end BookViz.PC

namespace BookViz.PC

/-! ## Claim C1 (Dimension Selector bounds) -/

/-- Claim C1: for every dataset (with the JS-guaranteed distinct first-row
field names) and every valid configuration `minDims ≤ maxDims`, the number
of selected dimensions is at least `min(minDims, S)`, at most `maxDims`,
and at most `S`, where `S` is the number of surviving numeric
candidates. -/
theorem prepared_dims_bounds (rows : List Row) (maxDims minDims maxLines : ℕ)
    (hkeys : (rowKeys (rows.headD [])).Nodup) (hcfg : minDims ≤ maxDims) :
    min minDims (survivors rows).length ≤
      (prepared rows maxDims minDims maxLines).dims.length ∧
    (prepared rows maxDims minDims maxLines).dims.length ≤ maxDims ∧
    (prepared rows maxDims minDims maxLines).dims.length ≤ (survivors rows).length := by
  rw [prepared_dims_length rows maxDims minDims maxLines hkeys]
  split_ifs <;> omega

/-- Witness for C1: the default configuration 4/6 on a one-row dataset
with two numeric columns. -/
theorem prepared_dims_bounds_witness :
    min 4 (survivors pcRowsA).length ≤ (prepared pcRowsA 6 4 550).dims.length ∧
    (prepared pcRowsA 6 4 550).dims.length ≤ 6 ∧
    (prepared pcRowsA 6 4 550).dims.length ≤ (survivors pcRowsA).length :=
  prepared_dims_bounds pcRowsA 6 4 550 (by decide) (by decide)

/-! ## Claim C9 (selection lower clamp) -/

/-- Claim C9, counterexample: a dataset with one surviving numeric
candidate, run with `maxDims = 0` and `minDims = 0`, selects NO
dimension: the interim `Math.max(1, ...)` clamp is cancelled by the
subsequent `dims.length > maxDims` truncation, so `maxDims = 0` does not
yield one selected dimension. -/
theorem prepared_maxDims_zero_cex :
    (survivors pcRowsB).length = 1 ∧
    (prepared pcRowsB 0 0 550).dims = [] :=
  ⟨by with_unfolding_all decide, by with_unfolding_all decide⟩

/-- Claim C9, amended: when at least one numeric candidate survives, the
selector picks at least one dimension provided `maxDims ≥ 1`; for
`maxDims = 0` the `max(1, ...)` clamp is undone by the subsequent
`maxDims` truncation and the selection has exactly `min(minDims, S)`
dimensions — empty when `minDims = 0` as well. -/
theorem prepared_dims_lower_clamp (rows : List Row) (maxDims minDims maxLines : ℕ)
    (hkeys : (rowKeys (rows.headD [])).Nodup) :
    (1 ≤ maxDims → 1 ≤ (survivors rows).length →
      1 ≤ (prepared rows maxDims minDims maxLines).dims.length) ∧
    (maxDims = 0 →
      (prepared rows maxDims minDims maxLines).dims.length =
        min minDims (survivors rows).length) := by
  constructor
  · intro hM hS
    rw [prepared_dims_length rows maxDims minDims maxLines hkeys]
    split_ifs <;> omega
  · intro hM
    rw [prepared_dims_length rows maxDims minDims maxLines hkeys, if_pos hM]

/-- Witness for the amended C9 theorem: with `maxDims = 1` the single
surviving candidate is selected; with `maxDims = 0` the selection size is
`min 0 1 = 0`. -/
theorem prepared_dims_lower_clamp_witness :
    1 ≤ (prepared pcRowsB 1 3 550).dims.length ∧
    (prepared pcRowsB 0 0 550).dims.length = min 0 (survivors pcRowsB).length :=
  ⟨(prepared_dims_lower_clamp pcRowsB 1 3 550 (by decide)).1 (by decide)
      (by with_unfolding_all decide),
   (prepared_dims_lower_clamp pcRowsB 0 0 550 (by decide)).2 rfl⟩

/-! ## Claim C7 (projection row-drop majority rule) -/

theorem mkRec_raw (tk : Option String) (dims : List String) (r : Row) :
    (mkRec tk dims r).raw = r := rfl

theorem mkRec_vals (tk : Option String) (dims : List String) (r : Row) :
    (mkRec tk dims r).vals = dims.map (fun d => (d, coerceVal (getVal r d))) := rfl

theorem mkRec_missing (tk : Option String) (dims : List String) (r : Row) :
    (mkRec tk dims r).missing = missingOf r dims := rfl

/-- Every record of `projFor` comes from an input row and satisfies the
majority-present rule. -/
theorem projFor_mem (rows : List Row) (tk : Option String) (dims : List String)
    (mL : ℕ) (rec : PRec) (h : rec ∈ projFor rows tk dims mL) :
    ∃ r ∈ rows, rec = mkRec tk dims r ∧ rec.missing ≤ dims.length / 2 := by
  have h2 : rec ∈ (rows.map (mkRec tk dims)).filter
      (fun rec => decide (rec.missing ≤ dims.length / 2)) := by
    have hsub : projFor rows tk dims mL ⊆ (rows.map (mkRec tk dims)).filter
        (fun rec => decide (rec.missing ≤ dims.length / 2)) := by
      unfold projFor
      dsimp only
      split
      · exact List.take_subset _ _
      · exact fun x hx => hx
    exact hsub h
  rcases List.mem_filter.mp h2 with ⟨hmem, hcond⟩
  rcases List.mem_map.mp hmem with ⟨r, hr, hrec⟩
  exact ⟨r, hr, hrec.symm, by simpa using hcond⟩

/-- Claim C7: a row whose missing-dimension count exceeds
`floor(|dims| / 2)` is dropped entirely — no record with that raw row
appears in the Prepared Projection set; and every record that does appear
is built from an input row, has exactly one cell per selected dimension
(in selected order, `null` for non-finite values), and obeys the
majority-present rule.  No partial or ghost rows. -/
theorem prepared_projection_rows (rows : List Row) (maxDims minDims maxLines : ℕ) :
    (∀ r ∈ rows,
      (prepared rows maxDims minDims maxLines).dims.length / 2 <
          missingOf r (prepared rows maxDims minDims maxLines).dims →
      ¬ ∃ rec, rec ∈ (prepared rows maxDims minDims maxLines).data ∧ rec.raw = r) ∧
    (∀ rec, rec ∈ (prepared rows maxDims minDims maxLines).data →
      rec.raw ∈ rows ∧
      rec.vals = (prepared rows maxDims minDims maxLines).dims.map
        (fun d => (d, coerceVal (getVal rec.raw d))) ∧
      rec.missing = missingOf rec.raw (prepared rows maxDims minDims maxLines).dims ∧
      rec.missing ≤ (prepared rows maxDims minDims maxLines).dims.length / 2) := by
  cases rows with
  | nil =>
    constructor
    · intro r hr
      exact absurd hr (List.not_mem_nil r)
    · intro rec hrec
      exact absurd hrec (List.not_mem_nil rec)
  | cons row0 rest =>
    have hdims : (prepared (row0 :: rest) maxDims minDims maxLines).dims =
        dimsFor
          (combinedFor
            (preferredFor ((statsFor (row0 :: rest) (rowKeys row0)).map Stat.key))
            ((sortDescBy (fun d => d.var)
              (statsFor (row0 :: rest) (rowKeys row0))).map Stat.key))
          maxDims minDims := by
    -- `Array.from(new Set(dims))` is the identity here: `dims` is a
    -- slice of the duplicate-free `combined` list
      have hnodup := (combinedFor_nodup
        (preferredFor ((statsFor (row0 :: rest) (rowKeys row0)).map Stat.key))
        ((sortDescBy (fun d => d.var)
          (statsFor (row0 :: rest) (rowKeys row0))).map Stat.key)).sublist
        (dimsFor_sublist _ maxDims minDims)
      exact dedupFold_of_nodup _ hnodup
    have hdata : (prepared (row0 :: rest) maxDims minDims maxLines).data =
        projFor (row0 :: rest) (pickKey row0 titleCandidates)
          (dimsFor
            (combinedFor
              (preferredFor ((statsFor (row0 :: rest) (rowKeys row0)).map Stat.key))
              ((sortDescBy (fun d => d.var)
                (statsFor (row0 :: rest) (rowKeys row0))).map Stat.key))
            maxDims minDims) maxLines := rfl
    constructor
    · rintro r hr hmiss ⟨rec, hrec, hraw⟩
      rw [hdata] at hrec
      rcases projFor_mem _ _ _ _ rec hrec with ⟨r2, _, hrec2, hle⟩
      have hr2 : rec.raw = r2 := by rw [hrec2, mkRec_raw]
      have hrr : r2 = r := by rw [← hr2, hraw]
      rw [hrec2, mkRec_missing, hrr] at hle
      rw [hdims] at hmiss
      exact absurd hle (not_le.mpr hmiss)
    · intro rec hrec
      rw [hdata] at hrec
      rcases projFor_mem _ _ _ _ rec hrec with ⟨r2, hr2mem, hrec2, hle⟩
      have hraw : rec.raw = r2 := by rw [hrec2, mkRec_raw]
      refine ⟨hraw ▸ hr2mem, ?_, ?_, ?_⟩
      · rw [hdims, hrec2, mkRec_vals, mkRec_raw]
      · rw [hdims, hrec2, mkRec_missing, mkRec_raw]
      · rw [hdims]
        exact hle

set_option maxRecDepth 8000 in
/-- Witness for C7: in the five-row dataset `pcRowsC` the selector picks
the three columns, the threshold is 1, and the final row (two missing
cells) never appears in the projection. -/
theorem prepared_projection_rows_witness :
    ¬ ∃ rec, rec ∈ (prepared pcRowsC 6 4 550).data ∧ rec.raw = pcBadRow :=
  (prepared_projection_rows pcRowsC 6 4 550).1 pcBadRow (by decide)
    (by with_unfolding_all decide)

end BookViz.PC
